import Mathlib

/-!
Verification of the online batch-hard triplet mining core of `typing-net`
(`models/cnn_siamese_online.py` and `util.py`), shallowly embedded in Lean.

Embeddings are batches of rational vectors (`List (List ℚ)`); labels are
integer lists (`List ℤ`).  NumPy's row-major matrices become lists of rows,
`np.argmax`/`np.argmin` become first-occurrence extremum searches, and
`random.shuffle` becomes a Fisher–Yates pass driven by an explicit oracle.
-/

namespace TypingNet

/-- Dot product of two vectors (`np.matmul` entry). -/
def dot (x y : List ℚ) : ℚ := (List.zipWith (· * ·) x y).sum

/-- Squared L2 norm of an embedding: `np.diagonal(dot_products)` entry,
i.e. the dot product of the vector with itself. -/
def squareNorm (e : List ℚ) : ℚ := dot e e

/-- Embedding of `OnlineTripletGenerator._pairwise_distances`.  The source computes
`distances = np.expand_dims(square_norms, 0) - 2.0 * dot_products + np.expand_dims(square_norms, 0)`
— note that BOTH broadcast terms expand on axis 0, so entry `[i][j]` is
`square_norms[j] - 2 * dot(e_i, e_j) + square_norms[j]`, followed by
`np.maximum(distances, 0)`. -/
def pairwise_distances (E : List (List ℚ)) : List (List ℚ) :=
  (List.range E.length).map fun i =>
    (List.range E.length).map fun j =>
      max (squareNorm (E.getD j []) - 2 * dot (E.getD i []) (E.getD j [])
             + squareNorm (E.getD j [])) 0

/-- What the spec describes: entry `[i][j]` is
`‖e_i‖² − 2·e_i·e_j + ‖e_j‖²` clamped at zero (the squared Euclidean
distance identity). -/
def spec_pairwise_distances (E : List (List ℚ)) : List (List ℚ) :=
  (List.range E.length).map fun i =>
    (List.range E.length).map fun j =>
      max (squareNorm (E.getD i []) - 2 * dot (E.getD i []) (E.getD j [])
             + squareNorm (E.getD j [])) 0

/-- Helper for `argmax`: scans the remaining list, carrying the best
(index, value) pair so far and the index of the next element; a later
element replaces the best only if strictly greater (first occurrence wins,
as in `np.argmax`). -/
def argmaxGo {α : Type} [LinearOrder α] : List α → ℕ × α → ℕ → ℕ × α
  | [], best, _ => best
  | x :: xs, best, cur =>
      if best.2 < x then argmaxGo xs (cur, x) (cur + 1)
      else argmaxGo xs best (cur + 1)

/-- Embedding of `np.argmax` over one row: index of the first occurrence of the maximum
(0 on the empty list). -/
def argmax {α : Type} [LinearOrder α] (l : List α) : ℕ :=
  match l with
  | [] => 0
  | x :: xs => (argmaxGo xs (0, x) 1).1

/-- Helper for `argmin`, mirroring `argmaxGo` with the order reversed. -/
def argminGo {α : Type} [LinearOrder α] : List α → ℕ × α → ℕ → ℕ × α
  | [], best, _ => best
  | x :: xs, best, cur =>
      if x < best.2 then argminGo xs (cur, x) (cur + 1)
      else argminGo xs best (cur + 1)

/-- Embedding of `np.argmin` over one row: index of the first occurrence of the minimum
(0 on the empty list). -/
def argmin {α : Type} [LinearOrder α] (l : List α) : ℕ :=
  match l with
  | [] => 0
  | x :: xs => (argminGo xs (0, x) 1).1

/-- Embedding of `np.amax` over one row: the maximum of the list (0 on the empty list,
which `np.amax` would reject). -/
def amax (l : List ℚ) : ℚ :=
  match l with
  | [] => 0
  | x :: xs => xs.foldl max x

/-- Embedding of `OnlineTripletGenerator._anchor_positive_mask`: `mask[a][p]` is true iff
`a ≠ p` and `labels[a] == labels[p]`. -/
def anchor_positive_mask (labels : List ℤ) : List (List Bool) :=
  (List.range labels.length).map fun a =>
    (List.range labels.length).map fun p =>
      (a != p) && (labels.getD a 0 == labels.getD p 0)

/-- Embedding of `OnlineTripletGenerator._anchor_negative_mask`: `mask[a][n]` is true iff
`labels[a] != labels[n]`. -/
def anchor_negative_mask (labels : List ℤ) : List (List Bool) :=
  (List.range labels.length).map fun a =>
    (List.range labels.length).map fun n =>
      !(labels.getD a 0 == labels.getD n 0)

/-- Embedding of `OnlineTripletGenerator._batch_hard`.  Anchors are `0..N-1`; positives
come from `np.argmax` over `mask_anchor_positive * pairwise_dists` (invalid
entries zeroed); negatives come from `np.argmin` over
`pairwise_dists + max_dist * (1 - mask_anchor_negative)` where `max_dist`
is the row maximum of `pairwise_dists`. -/
def batch_hard (E : List (List ℚ)) (labels : List ℤ) :
    List ℕ × List ℕ × List ℕ :=
  let n := E.length
  let anchor_inds := List.range n
  let pairwise_dists := pairwise_distances E
  let mask_anchor_positive := anchor_positive_mask labels
  let anchor_positive_dists :=
    (List.range n).map fun a =>
      (List.range n).map fun p =>
        if (mask_anchor_positive.getD a []).getD p false then
          ((pairwise_dists.getD a []).getD p 0) else 0
  let positive_inds := anchor_positive_dists.map argmax
  let mask_anchor_negative := anchor_negative_mask labels
  let max_dist := pairwise_dists.map amax
  let anchor_negative_dists :=
    (List.range n).map fun a =>
      (List.range n).map fun j =>
        (pairwise_dists.getD a []).getD j 0
          + max_dist.getD a 0
            * (1 - (if (mask_anchor_negative.getD a []).getD j false then (1 : ℚ) else 0))
  let negative_inds := anchor_negative_dists.map argmin
  (anchor_inds, positive_inds, negative_inds)

/-- Embedding of `_euclidean_distance`:
`K.sqrt(K.maximum(K.sum(K.square(x - y)), K.epsilon()))`, with the backend
epsilon made an explicit parameter. -/
noncomputable def euclidean_distance (eps : ℝ) (x y : List ℝ) : ℝ :=
  Real.sqrt (max ((List.zipWith (fun a b => (a - b) * (a - b)) x y).sum) eps)

/-- Embedding of `_triplet_distance`:
`K.maximum(_euclidean_distance([A, P]) - _euclidean_distance([A, N]) + ALPHA, 0.0)`,
with the margin `ALPHA` an explicit parameter. -/
noncomputable def triplet_distance (alpha eps : ℝ) (A P N : List ℝ) : ℝ :=
  max (euclidean_distance eps A P - euclidean_distance eps A N + alpha) 0

/-- Embedding of `OnlineTripletGenerator.__len__`: `int(np.ceil(n_examples / batch_size))`,
the float division modelled as exact rational division. -/
def generator_len (n_examples batch_size : ℕ) : ℕ :=
  (⌈(n_examples : ℚ) / (batch_size : ℚ)⌉).toNat

/-- The index slice taken by `OnlineTripletGenerator.__getitem__`:
`self.indices[index * self.batch_size : (index + 1) * self.batch_size]`. -/
def batch_indices (indices : List ℕ) (index batch_size : ℕ) : List ℕ :=
  (indices.drop (index * batch_size)).take batch_size

/-- One swap step of CPython's `random.shuffle`: `x[i], x[j] = x[j], x[i]`
(identity when an index is out of range, which the loop never produces). -/
def listSwap (l : List ℕ) (i j : ℕ) : List ℕ :=
  (l.set i (l.getD j 0)).set j (l.getD i 0)

/-- The loop of `random.shuffle` run down from position `i`: at each step
`i+1` it swaps position `i+1` with `r (i+1) % (i+2)`, the random draw
`randbelow(i+2)` supplied by the oracle `r`. -/
def shuffleAux (r : ℕ → ℕ) : List ℕ → ℕ → List ℕ
  | l, 0 => l
  | l, i + 1 => shuffleAux r (listSwap l (i + 1) (r (i + 1) % (i + 2))) i

/-- Embedding of `OnlineTripletGenerator.on_epoch_end`: `random.shuffle(self.indices)`,
the randomness supplied by an explicit oracle `r`. -/
def on_epoch_end (r : ℕ → ℕ) (indices : List ℕ) : List ℕ :=
  shuffleAux r indices (indices.length - 1)

/-- Embedding of `util.one_hot_to_index` on a 2-D array: each row maps to `-1` when it
has no nonzero entry (`np.nonzero(num)[0].size == 0`) and to
`np.argmax(num)` otherwise. -/
def one_hot_to_index (y : List (List ℤ)) : List ℤ :=
  y.map fun num => if num.any (fun v => v != 0) then (argmax num : ℤ) else -1

/-- Embedding of `util.index_to_one_hot`: `np.eye(n_classes)[y]` (NumPy resolves a
negative label `v` to row `n_classes + v`), after which every row whose
label was `-1` is overwritten with all `-1` entries. -/
def index_to_one_hot (y : List ℤ) (n_classes : ℕ) : List (List ℤ) :=
  y.map fun v =>
    if v = -1 then List.replicate n_classes (-1)
    else
      (List.range n_classes).map fun (j : ℕ) =>
        if (j : ℤ) = (if v < 0 then (n_classes : ℤ) + v else v) then 1 else 0

/-! Helper lemmas about indexing, `argmax`/`argmin`, and `amax`. -/

theorem getD_map_range {α : Type} (f : ℕ → α) {n j : ℕ} (d : α) (hj : j < n) :
    ((List.range n).map f).getD j d = f j := by
  rw [List.getD_eq_getElem?_getD, List.getElem?_map, List.getElem?_range hj]
  rfl

theorem length_map_range {α : Type} (f : ℕ → α) (n : ℕ) :
    ((List.range n).map f).length = n := by simp

/-- Behaviour of the `argmax` scan: the result is either the incoming best
pair or a strictly better element of the remainder; its value dominates the
incoming best value and every element of the remainder. -/
theorem argmaxGo_spec {α : Type} [LinearOrder α] (xs : List α) :
    ∀ (best : ℕ × α) (cur : ℕ),
      ((argmaxGo xs best cur).1 = best.1 ∧ (argmaxGo xs best cur).2 = best.2 ∨
        ∃ k, ∃ hk : k < xs.length,
          (argmaxGo xs best cur).1 = cur + k ∧
          (argmaxGo xs best cur).2 = xs.get ⟨k, hk⟩ ∧ best.2 < xs.get ⟨k, hk⟩) ∧
      best.2 ≤ (argmaxGo xs best cur).2 ∧
      ∀ k, ∀ hk : k < xs.length, xs.get ⟨k, hk⟩ ≤ (argmaxGo xs best cur).2 := by
  induction xs with
  | nil =>
      intro best cur
      exact ⟨Or.inl ⟨rfl, rfl⟩, le_refl _, fun k hk => absurd hk (by simp)⟩
  | cons x xs ih =>
      intro best cur
      by_cases hx : best.2 < x
      · simp only [argmaxGo, if_pos hx]
        obtain ⟨hform, hle, hall⟩ := ih (cur, x) (cur + 1)
        refine ⟨?_, le_trans (le_of_lt hx) hle, ?_⟩
        · rcases hform with ⟨h1, h2⟩ | ⟨k, hk, h1, h2, h3⟩
          · exact Or.inr ⟨0, by simp, by simpa using h1, by simpa using h2, by simpa using hx⟩
          · refine Or.inr ⟨k + 1, by simpa using Nat.succ_lt_succ hk, by omega, ?_, ?_⟩
            · simpa using h2
            · exact lt_trans hx (by simpa using h3)
        · intro k hk
          match k with
          | 0 => simpa using hle
          | k + 1 => simpa using hall k (by simpa using Nat.lt_of_succ_lt_succ hk)
      · simp only [argmaxGo, if_neg hx]
        obtain ⟨hform, hle, hall⟩ := ih best (cur + 1)
        refine ⟨?_, hle, ?_⟩
        · rcases hform with ⟨h1, h2⟩ | ⟨k, hk, h1, h2, h3⟩
          · exact Or.inl ⟨h1, h2⟩
          · exact Or.inr ⟨k + 1, by simpa using Nat.succ_lt_succ hk, by omega,
              by simpa using h2, lt_of_le_of_lt (le_refl _) (by simpa using h3)⟩
        · intro k hk
          match k with
          | 0 => simpa using le_trans (le_of_not_lt hx) hle
          | k + 1 => simpa using hall k (by simpa using Nat.lt_of_succ_lt_succ hk)

/-- On a nonempty list, `argmax` returns an in-range index. -/
theorem argmax_lt_length {α : Type} [LinearOrder α] (l : List α) (h : 0 < l.length) :
    argmax l < l.length := by
  match l with
  | [] => simp at h
  | x :: xs =>
      obtain ⟨hform, -, -⟩ := argmaxGo_spec xs (0, x) 1
      rcases hform with ⟨h1, -⟩ | ⟨k, hk, h1, -, -⟩
      · simp [argmax, h1]
      · simp only [argmax, h1, List.length_cons]
        omega

/-- Every entry of the list is bounded by the entry at `argmax`. -/
theorem getD_le_getD_argmax {α : Type} [LinearOrder α] (l : List α) (d : α)
    (i : ℕ) (hi : i < l.length) : l.getD i d ≤ l.getD (argmax l) d := by
  match l with
  | [] => simp at hi
  | x :: xs =>
      obtain ⟨hform, hle, hall⟩ := argmaxGo_spec xs (0, x) 1
      have hval : (x :: xs).getD (argmax (x :: xs)) d = (argmaxGo xs (0, x) 1).2 := by
        rcases hform with ⟨h1, h2⟩ | ⟨k, hk, h1, h2, -⟩
        · simp [argmax, h1, h2]
        · have : argmax (x :: xs) = k + 1 := by simp only [argmax]; omega
          rw [this, h2, List.getD_cons_succ, List.getD_eq_getElem?_getD,
            List.getElem?_eq_getElem hk]
          rfl
      rw [hval]
      match i with
      | 0 => simpa using hle
      | i + 1 =>
          have hi' : i < xs.length := by simpa using Nat.lt_of_succ_lt_succ hi
          rw [List.getD_cons_succ, List.getD_eq_getElem?_getD, List.getElem?_eq_getElem hi']
          exact hall i hi'

/-- On a constant list, `argmax` picks the first position. -/
theorem argmax_replicate {α : Type} [LinearOrder α] (n : ℕ) (c : α) :
    argmax (List.replicate n c) = 0 := by
  match n with
  | 0 => rfl
  | n + 1 =>
      have hrep : List.replicate (n + 1) c = c :: List.replicate n c := rfl
      obtain ⟨hform, -, -⟩ := argmaxGo_spec (List.replicate n c) (0, c) 1
      rcases hform with ⟨h1, -⟩ | ⟨k, hk, -, -, h3⟩
      · simp [argmax, hrep, h1]
      · simp [List.get_eq_getElem] at h3

/-- Behaviour of the `argmin` scan, dual to `argmaxGo_spec`. -/
theorem argminGo_spec {α : Type} [LinearOrder α] (xs : List α) :
    ∀ (best : ℕ × α) (cur : ℕ),
      ((argminGo xs best cur).1 = best.1 ∧ (argminGo xs best cur).2 = best.2 ∨
        ∃ k, ∃ hk : k < xs.length,
          (argminGo xs best cur).1 = cur + k ∧
          (argminGo xs best cur).2 = xs.get ⟨k, hk⟩ ∧ xs.get ⟨k, hk⟩ < best.2) ∧
      (argminGo xs best cur).2 ≤ best.2 ∧
      ∀ k, ∀ hk : k < xs.length, (argminGo xs best cur).2 ≤ xs.get ⟨k, hk⟩ := by
  induction xs with
  | nil =>
      intro best cur
      exact ⟨Or.inl ⟨rfl, rfl⟩, le_refl _, fun k hk => absurd hk (by simp)⟩
  | cons x xs ih =>
      intro best cur
      by_cases hx : x < best.2
      · simp only [argminGo, if_pos hx]
        obtain ⟨hform, hle, hall⟩ := ih (cur, x) (cur + 1)
        refine ⟨?_, le_trans hle (le_of_lt hx), ?_⟩
        · rcases hform with ⟨h1, h2⟩ | ⟨k, hk, h1, h2, h3⟩
          · exact Or.inr ⟨0, by simp, by simpa using h1, by simpa using h2, by simpa using hx⟩
          · refine Or.inr ⟨k + 1, by simpa using Nat.succ_lt_succ hk, by omega, ?_, ?_⟩
            · simpa using h2
            · exact lt_trans (by simpa using h3) hx
        · intro k hk
          match k with
          | 0 => simpa using hle
          | k + 1 => simpa using hall k (by simpa using Nat.lt_of_succ_lt_succ hk)
      · simp only [argminGo, if_neg hx]
        obtain ⟨hform, hle, hall⟩ := ih best (cur + 1)
        refine ⟨?_, hle, ?_⟩
        · rcases hform with ⟨h1, h2⟩ | ⟨k, hk, h1, h2, h3⟩
          · exact Or.inl ⟨h1, h2⟩
          · exact Or.inr ⟨k + 1, by simpa using Nat.succ_lt_succ hk, by omega,
              by simpa using h2, by simpa using h3⟩
        · intro k hk
          match k with
          | 0 => simpa using le_trans hle (le_of_not_lt hx)
          | k + 1 => simpa using hall k (by simpa using Nat.lt_of_succ_lt_succ hk)

/-- On a nonempty list, `argmin` returns an in-range index. -/
theorem argmin_lt_length {α : Type} [LinearOrder α] (l : List α) (h : 0 < l.length) :
    argmin l < l.length := by
  match l with
  | [] => simp at h
  | x :: xs =>
      obtain ⟨hform, -, -⟩ := argminGo_spec xs (0, x) 1
      rcases hform with ⟨h1, -⟩ | ⟨k, hk, h1, -, -⟩
      · simp [argmin, h1]
      · simp only [argmin, h1, List.length_cons]
        omega

/-- The entry at `argmin` is bounded by every entry of the list. -/
theorem getD_argmin_le_getD {α : Type} [LinearOrder α] (l : List α) (d : α)
    (i : ℕ) (hi : i < l.length) : l.getD (argmin l) d ≤ l.getD i d := by
  match l with
  | [] => simp at hi
  | x :: xs =>
      obtain ⟨hform, hle, hall⟩ := argminGo_spec xs (0, x) 1
      have hval : (x :: xs).getD (argmin (x :: xs)) d = (argminGo xs (0, x) 1).2 := by
        rcases hform with ⟨h1, h2⟩ | ⟨k, hk, h1, h2, -⟩
        · simp [argmin, h1, h2]
        · have : argmin (x :: xs) = k + 1 := by simp only [argmin]; omega
          rw [this, h2, List.getD_cons_succ, List.getD_eq_getElem?_getD,
            List.getElem?_eq_getElem hk]
          rfl
      rw [hval]
      match i with
      | 0 => simpa using hle
      | i + 1 =>
          have hi' : i < xs.length := by simpa using Nat.lt_of_succ_lt_succ hi
          rw [List.getD_cons_succ, List.getD_eq_getElem?_getD, List.getElem?_eq_getElem hi']
          exact hall i hi'

theorem le_foldl_max (xs : List ℚ) (b : ℚ) : b ≤ xs.foldl max b := by
  induction xs generalizing b with
  | nil => exact le_refl b
  | cons x xs ih => exact le_trans (le_max_left b x) (ih (max b x))

theorem getD_le_foldl_max (xs : List ℚ) (b : ℚ) (i : ℕ) (hi : i < xs.length) (d : ℚ) :
    xs.getD i d ≤ xs.foldl max b := by
  induction xs generalizing b i with
  | nil => simp at hi
  | cons x xs ih =>
      match i with
      | 0 =>
          simpa using le_trans (le_max_right b x) (le_foldl_max xs (max b x))
      | i + 1 =>
          exact ih (max b x) i (by simpa using Nat.lt_of_succ_lt_succ hi)

/-- Every entry of the list is bounded by `amax`. -/
theorem getD_le_amax (l : List ℚ) (i : ℕ) (hi : i < l.length) (d : ℚ) :
    l.getD i d ≤ amax l := by
  match l with
  | [] => simp at hi
  | x :: xs =>
      match i with
      | 0 => simpa [amax] using le_foldl_max xs x
      | i + 1 =>
          simpa [amax] using
            getD_le_foldl_max xs x i (by simpa using Nat.lt_of_succ_lt_succ hi) d

/-! Structural lemmas about the distance matrix, the masks, and the
projections of `batch_hard`. -/

theorem length_pairwise_distances (E : List (List ℚ)) :
    (pairwise_distances E).length = E.length := by
  simp [pairwise_distances]

theorem pairwise_distances_row (E : List (List ℚ)) {a : ℕ} (ha : a < E.length) :
    (pairwise_distances E).getD a [] =
      (List.range E.length).map fun j =>
        max (squareNorm (E.getD j []) - 2 * dot (E.getD a []) (E.getD j [])
               + squareNorm (E.getD j [])) 0 := by
  exact getD_map_range _ _ ha

theorem pairwise_distances_entry (E : List (List ℚ)) {a j : ℕ}
    (ha : a < E.length) (hj : j < E.length) :
    ((pairwise_distances E).getD a []).getD j 0 =
      max (squareNorm (E.getD j []) - 2 * dot (E.getD a []) (E.getD j [])
             + squareNorm (E.getD j [])) 0 := by
  rw [pairwise_distances_row E ha, getD_map_range _ _ hj]

theorem pairwise_distances_entry_nonneg (E : List (List ℚ)) {a j : ℕ}
    (ha : a < E.length) (hj : j < E.length) :
    0 ≤ ((pairwise_distances E).getD a []).getD j 0 := by
  rw [pairwise_distances_entry E ha hj]
  exact le_max_right _ 0

theorem pairwise_distances_row_length (E : List (List ℚ)) {a : ℕ} (ha : a < E.length) :
    ((pairwise_distances E).getD a []).length = E.length := by
  rw [pairwise_distances_row E ha]
  simp

theorem anchor_positive_mask_entry (L : List ℤ) {a p : ℕ}
    (ha : a < L.length) (hp : p < L.length) :
    ((anchor_positive_mask L).getD a []).getD p false =
      ((a != p) && (L.getD a 0 == L.getD p 0)) := by
  rw [anchor_positive_mask, getD_map_range _ _ ha, getD_map_range _ _ hp]

theorem anchor_negative_mask_entry (L : List ℤ) {a n : ℕ}
    (ha : a < L.length) (hn : n < L.length) :
    ((anchor_negative_mask L).getD a []).getD n false =
      !(L.getD a 0 == L.getD n 0) := by
  rw [anchor_negative_mask, getD_map_range _ _ ha, getD_map_range _ _ hn]

/-- The row the positive-side `argmax` of `_batch_hard` scans for anchor `a`:
the anchor's distance row with invalid positions zeroed. -/
def positiveRow (E : List (List ℚ)) (L : List ℤ) (a : ℕ) : List ℚ :=
  (List.range E.length).map fun p =>
    if ((anchor_positive_mask L).getD a []).getD p false then
      ((pairwise_distances E).getD a []).getD p 0
    else 0

/-- The row the negative-side `argmin` of `_batch_hard` scans for anchor `a`:
the anchor's distance row with the row maximum added at invalid positions. -/
def negativeRow (E : List (List ℚ)) (L : List ℤ) (a : ℕ) : List ℚ :=
  (List.range E.length).map fun j =>
    ((pairwise_distances E).getD a []).getD j 0
      + ((pairwise_distances E).map amax).getD a 0
        * (1 - (if ((anchor_negative_mask L).getD a []).getD j false then (1 : ℚ) else 0))

theorem batch_hard_positive (E : List (List ℚ)) (L : List ℤ) {a : ℕ}
    (ha : a < E.length) :
    ((batch_hard E L).2.1).getD a 0 = argmax (positiveRow E L a) := by
  simp only [batch_hard, List.map_map]
  exact getD_map_range _ _ ha

theorem batch_hard_negative (E : List (List ℚ)) (L : List ℤ) {a : ℕ}
    (ha : a < E.length) :
    ((batch_hard E L).2.2).getD a 0 = argmin (negativeRow E L a) := by
  simp only [batch_hard, List.map_map]
  exact getD_map_range _ _ ha

theorem positiveRow_length (E : List (List ℚ)) (L : List ℤ) (a : ℕ) :
    (positiveRow E L a).length = E.length := by simp [positiveRow]

theorem negativeRow_length (E : List (List ℚ)) (L : List ℤ) (a : ℕ) :
    (negativeRow E L a).length = E.length := by simp [negativeRow]

theorem positiveRow_entry (E : List (List ℚ)) (L : List ℤ) (a : ℕ) {p : ℕ}
    (hp : p < E.length) :
    (positiveRow E L a).getD p 0 =
      if ((anchor_positive_mask L).getD a []).getD p false then
        ((pairwise_distances E).getD a []).getD p 0
      else 0 := by
  rw [positiveRow, getD_map_range _ _ hp]

theorem negativeRow_entry (E : List (List ℚ)) (L : List ℤ) (a : ℕ) {j : ℕ}
    (hj : j < E.length) :
    (negativeRow E L a).getD j 0 =
      ((pairwise_distances E).getD a []).getD j 0
        + ((pairwise_distances E).map amax).getD a 0
          * (1 - (if ((anchor_negative_mask L).getD a []).getD j false then (1 : ℚ) else 0)) := by
  rw [negativeRow, getD_map_range _ _ hj]

/-- The value `max_dist[a]` in `_batch_hard` is the `amax` of the anchor's distance row. -/
theorem max_dist_eq (E : List (List ℚ)) {a : ℕ} (ha : a < E.length) :
    ((pairwise_distances E).map amax).getD a 0 = amax ((pairwise_distances E).getD a []) := by
  have ha' : a < (pairwise_distances E).length := by
    rw [length_pairwise_distances]; exact ha
  rw [List.getD_eq_getElem?_getD, List.getElem?_map, List.getElem?_eq_getElem ha']
  simp [List.getD_eq_getElem?_getD, List.getElem?_eq_getElem ha']

/-- The value `max_dist[a]` dominates every entry of the anchor's distance row. -/
theorem max_dist_ge (E : List (List ℚ)) {a j : ℕ} (ha : a < E.length) (hj : j < E.length) :
    ((pairwise_distances E).getD a []).getD j 0 ≤ ((pairwise_distances E).map amax).getD a 0 := by
  rw [max_dist_eq E ha]
  exact getD_le_amax _ j (by rw [pairwise_distances_row_length E ha]; exact hj) 0

/-- The value `max_dist[a]` is nonnegative (the distance row is clamped at zero). -/
theorem max_dist_nonneg (E : List (List ℚ)) {a : ℕ} (ha : a < E.length) :
    0 ≤ ((pairwise_distances E).map amax).getD a 0 :=
  le_trans (pairwise_distances_entry_nonneg E ha (Nat.lt_of_lt_of_le (Nat.zero_lt_of_lt ha) (le_refl _)) |>.trans (le_refl _))
    (max_dist_ge E ha (Nat.lt_of_lt_of_le (Nat.zero_lt_of_lt ha) (le_refl _)))

/-- A valid positive candidate's masked row entry is its distance entry. -/
theorem positiveRow_entry_valid (E : List (List ℚ)) (L : List ℤ)
    (hL : L.length = E.length) {a p : ℕ} (ha : a < E.length) (hp : p < E.length)
    (hne : p ≠ a) (hlab : L.getD p 0 = L.getD a 0) :
    (positiveRow E L a).getD p 0 = ((pairwise_distances E).getD a []).getD p 0 := by
  rw [positiveRow_entry E L a hp,
    anchor_positive_mask_entry L (by rw [hL]; exact ha) (by rw [hL]; exact hp)]
  have h1 : (a != p) = true := by simp [Ne.symm hne]
  have h2 : (L.getD a 0 == L.getD p 0) = true := beq_iff_eq.mpr hlab.symm
  rw [h1, h2]
  rfl

/-- Any masked positive row entry is bounded by the distance entry. -/
theorem positiveRow_entry_le (E : List (List ℚ)) (L : List ℤ) {a p : ℕ}
    (ha : a < E.length) (hp : p < E.length) :
    (positiveRow E L a).getD p 0 ≤ ((pairwise_distances E).getD a []).getD p 0 := by
  rw [positiveRow_entry E L a hp]
  by_cases h : ((anchor_positive_mask L).getD a []).getD p false
  · rw [if_pos h]
  · rw [if_neg h]
    exact pairwise_distances_entry_nonneg E ha hp

/-- A valid negative candidate's penalised row entry is its distance entry. -/
theorem negativeRow_entry_valid (E : List (List ℚ)) (L : List ℤ)
    (hL : L.length = E.length) {a m : ℕ} (ha : a < E.length) (hm : m < E.length)
    (hlab : L.getD m 0 ≠ L.getD a 0) :
    (negativeRow E L a).getD m 0 = ((pairwise_distances E).getD a []).getD m 0 := by
  rw [negativeRow_entry E L a hm,
    anchor_negative_mask_entry L (by rw [hL]; exact ha) (by rw [hL]; exact hm)]
  have h1 : (L.getD a 0 == L.getD m 0) = false := by
    rw [beq_eq_false_iff_ne]
    exact Ne.symm hlab
  rw [h1]
  simp

/-- Every penalised negative row entry dominates the distance entry. -/
theorem negativeRow_entry_ge (E : List (List ℚ)) (L : List ℤ) {a j : ℕ}
    (ha : a < E.length) (hj : j < E.length) :
    ((pairwise_distances E).getD a []).getD j 0 ≤ (negativeRow E L a).getD j 0 := by
  rw [negativeRow_entry E L a hj]
  have hmd : 0 ≤ ((pairwise_distances E).map amax).getD a 0 := max_dist_nonneg E ha
  by_cases h : ((anchor_negative_mask L).getD a []).getD j false
  · rw [if_pos h]
    ring_nf
    exact le_refl _
  · rw [if_neg h]
    nlinarith

/-- An invalid (same-label) negative row entry is at least `max_dist[a]`. -/
theorem negativeRow_entry_invalid_ge (E : List (List ℚ)) (L : List ℤ)
    (hL : L.length = E.length) {a j : ℕ} (ha : a < E.length) (hj : j < E.length)
    (hlab : L.getD j 0 = L.getD a 0) :
    ((pairwise_distances E).map amax).getD a 0 ≤ (negativeRow E L a).getD j 0 := by
  rw [negativeRow_entry E L a hj,
    anchor_negative_mask_entry L (by rw [hL]; exact ha) (by rw [hL]; exact hj)]
  have h1 : (L.getD a 0 == L.getD j 0) = true := beq_iff_eq.mpr hlab.symm
  rw [h1]
  have hd : 0 ≤ ((pairwise_distances E).getD a []).getD j 0 :=
    pairwise_distances_entry_nonneg E ha hj
  simp only [Bool.not_true, Bool.false_eq_true, if_false, sub_zero, mul_one]
  linarith

/-! Claim theorems. -/

/-- C1: the claim says `_pairwise_distances` computes
`‖a−b‖² = ‖a‖² − 2·a·b + ‖b‖²` clamped at zero.  The code broadcasts
`square_norms` on axis 0 in BOTH summands, so entry `[i][j]` is
`2‖e_j‖² − 2·e_i·e_j` clamped at zero.  On the batch `[[0],[1]]` the code
returns `[[0,2],[0,0]]`, while the claimed identity (embodied by
`spec_pairwise_distances`) gives `[[0,1],[1,0]]`. -/
theorem pairwise_distances_formula_bug :
    pairwise_distances [[0], [1]] = [[0, 2], [0, 0]] ∧
    spec_pairwise_distances [[0], [1]] = [[0, 1], [1, 0]] ∧
    pairwise_distances [[0], [1]] ≠ spec_pairwise_distances [[0], [1]] := by
  refine ⟨?_, ?_, ?_⟩ <;>
    norm_num [pairwise_distances, spec_pairwise_distances, squareNorm, dot,
      List.range_succ, max_def]

/-- C2: on the spec's concrete batch (1-D embeddings `[0,1,5,6]`, labels
`[A,A,B,B]`) the code's distance matrix is `[[0,2,50,72],[0,0,40,60],
[0,0,0,12],[0,0,0,0]]`, not the claimed `[[0,1,25,36],[1,0,16,25],
[25,16,0,1],[36,25,1,0]]` (which is what `spec_pairwise_distances`
produces); the batch-hard selections for anchor 0 do match the claim:
hardest positive 1 and hardest negative 2. -/
theorem concrete_batch_bug :
    pairwise_distances [[0], [1], [5], [6]] =
      [[0, 2, 50, 72], [0, 0, 40, 60], [0, 0, 0, 12], [0, 0, 0, 0]] ∧
    spec_pairwise_distances [[0], [1], [5], [6]] =
      [[0, 1, 25, 36], [1, 0, 16, 25], [25, 16, 0, 1], [36, 25, 1, 0]] ∧
    ((batch_hard [[0], [1], [5], [6]] [0, 0, 1, 1]).2.1).getD 0 0 = 1 ∧
    ((batch_hard [[0], [1], [5], [6]] [0, 0, 1, 1]).2.2).getD 0 0 = 2 := by
  refine ⟨?_, ?_, ?_, ?_⟩ <;>
    norm_num [batch_hard, pairwise_distances, spec_pairwise_distances, squareNorm, dot,
      List.range_succ, max_def, anchor_positive_mask, anchor_negative_mask,
      argmax, argmaxGo, argmin, argminGo, amax]

/-- C3: the claim says the distance matrix is symmetric with zero diagonal
and nonnegative entries.  Because of the axis-0/axis-0 broadcast slip the
matrix is not symmetric: on the batch `[[1],[2]]` the code gives
`Dist[0][1] = 4` but `Dist[1][0] = 0`. -/
theorem pairwise_distances_symmetry_bug :
    ((pairwise_distances [[1], [2]]).getD 0 []).getD 1 0 = 4 ∧
    ((pairwise_distances [[1], [2]]).getD 1 []).getD 0 0 = 0 := by
  constructor <;>
    norm_num [pairwise_distances, squareNorm, dot, List.range_succ, max_def]

/-- C4 (amended): for every batch of embeddings with labels of matching
length and every anchor `a`, if some same-label non-self candidate sits at
strictly positive (code) distance from `a`, the positive selected by
`_batch_hard` is a valid positive — in range, distinct from `a`, same
label — and if some different-label candidate sits at distance strictly
below the anchor's row maximum, the selected negative has a label different
from the anchor's.  (The original hypothesis — at least 2 classes with at
least 2 members each — does not suffice: see
`batch_hard_selects_valid_cex`.) -/
theorem batch_hard_selects_valid (E : List (List ℚ)) (L : List ℤ)
    (hL : L.length = E.length) (a : ℕ) (ha : a < E.length)
    (hpos : ∃ p, p < E.length ∧ p ≠ a ∧ L.getD p 0 = L.getD a 0 ∧
      0 < ((pairwise_distances E).getD a []).getD p 0)
    (hneg : ∃ m, m < E.length ∧ L.getD m 0 ≠ L.getD a 0 ∧
      ((pairwise_distances E).getD a []).getD m 0 < ((pairwise_distances E).map amax).getD a 0) :
    (((batch_hard E L).2.1).getD a 0 < E.length ∧
     ((batch_hard E L).2.1).getD a 0 ≠ a ∧
     L.getD (((batch_hard E L).2.1).getD a 0) 0 = L.getD a 0) ∧
    (((batch_hard E L).2.2).getD a 0 < E.length ∧
     L.getD (((batch_hard E L).2.2).getD a 0) 0 ≠ L.getD a 0) := by
  constructor
  · obtain ⟨p, hp, hne, hlab, hd⟩ := hpos
    rw [batch_hard_positive E L ha]
    have hrowlen : 0 < (positiveRow E L a).length := by
      rw [positiveRow_length]; omega
    have hM : argmax (positiveRow E L a) < E.length := by
      have := argmax_lt_length _ hrowlen
      rwa [positiveRow_length] at this
    have hbig : 0 < (positiveRow E L a).getD (argmax (positiveRow E L a)) 0 := by
      have h1 : (positiveRow E L a).getD p 0 =
          ((pairwise_distances E).getD a []).getD p 0 :=
        positiveRow_entry_valid E L hL ha hp hne hlab
      have h2 := getD_le_getD_argmax (positiveRow E L a) 0 p
        (by rw [positiveRow_length]; exact hp)
      rw [h1] at h2
      linarith
    have hmask : ((anchor_positive_mask L).getD a []).getD (argmax (positiveRow E L a)) false
        = true := by
      by_contra hcon
      rw [positiveRow_entry E L a hM] at hbig
      simp only [Bool.not_eq_true] at hcon
      rw [hcon] at hbig
      simp at hbig
    rw [anchor_positive_mask_entry L (by rw [hL]; exact ha) (by rw [hL]; exact hM)] at hmask
    simp only [Bool.and_eq_true, bne_iff_ne, beq_iff_eq] at hmask
    exact ⟨hM, Ne.symm hmask.1, hmask.2.symm⟩
  · obtain ⟨m, hm, hlab, hd⟩ := hneg
    rw [batch_hard_negative E L ha]
    have hrowlen : 0 < (negativeRow E L a).length := by
      rw [negativeRow_length]; omega
    have hN : argmin (negativeRow E L a) < E.length := by
      have := argmin_lt_length _ hrowlen
      rwa [negativeRow_length] at this
    refine ⟨hN, ?_⟩
    intro hcon
    have h1 : ((pairwise_distances E).map amax).getD a 0 ≤
        (negativeRow E L a).getD (argmin (negativeRow E L a)) 0 :=
      negativeRow_entry_invalid_ge E L hL ha hN hcon
    have h2 := getD_argmin_le_getD (negativeRow E L a) 0 m
      (by rw [negativeRow_length]; exact hm)
    have h3 : (negativeRow E L a).getD m 0 =
        ((pairwise_distances E).getD a []).getD m 0 :=
      negativeRow_entry_valid E L hL ha hm hlab
    rw [h3] at h2
    linarith

/-- Counterexample to C4 as stated: with four identical embeddings and
labels `[0,0,1,1]` (two distinct classes, each with two members) the
positive selected for anchor 0 is anchor 0 itself, and the negative
selected for anchor 0 carries the anchor's own label. -/
theorem batch_hard_selects_valid_cex :
    ((batch_hard [[0], [0], [0], [0]] [0, 0, 1, 1]).2.1).getD 0 0 = 0 ∧
    ([0, 0, 1, 1] : List ℤ).getD
        (((batch_hard [[0], [0], [0], [0]] [0, 0, 1, 1]).2.2).getD 0 0) 0 =
      ([0, 0, 1, 1] : List ℤ).getD 0 0 := by
  constructor <;>
    norm_num [batch_hard, pairwise_distances, squareNorm, dot, List.range_succ, max_def,
      anchor_positive_mask, anchor_negative_mask, argmax, argmaxGo, argmin, argminGo, amax]

/-- Witness for `batch_hard_selects_valid` at the spec's concrete batch,
anchor 0: candidate 1 is a same-label candidate at positive distance and
candidate 2 a different-label candidate below the row maximum. -/
theorem batch_hard_selects_valid_witness :
    (((batch_hard [[0], [1], [5], [6]] [0, 0, 1, 1]).2.1).getD 0 0 <
        ([[0], [1], [5], [6]] : List (List ℚ)).length ∧
     ((batch_hard [[0], [1], [5], [6]] [0, 0, 1, 1]).2.1).getD 0 0 ≠ 0 ∧
     ([0, 0, 1, 1] : List ℤ).getD
         (((batch_hard [[0], [1], [5], [6]] [0, 0, 1, 1]).2.1).getD 0 0) 0 =
       ([0, 0, 1, 1] : List ℤ).getD 0 0) ∧
    (((batch_hard [[0], [1], [5], [6]] [0, 0, 1, 1]).2.2).getD 0 0 <
        ([[0], [1], [5], [6]] : List (List ℚ)).length ∧
     ([0, 0, 1, 1] : List ℤ).getD
         (((batch_hard [[0], [1], [5], [6]] [0, 0, 1, 1]).2.2).getD 0 0) 0 ≠
       ([0, 0, 1, 1] : List ℤ).getD 0 0) :=
  batch_hard_selects_valid [[0], [1], [5], [6]] [0, 0, 1, 1] rfl 0 (by norm_num)
    ⟨1, by norm_num [pairwise_distances, squareNorm, dot, List.range_succ, max_def]⟩
    ⟨2, by norm_num [pairwise_distances, squareNorm, dot, List.range_succ, max_def, amax]⟩

/-- C5: for every batch of embeddings and labels of matching length and
every anchor `a` with at least one valid positive candidate and at least
one valid negative candidate, the positive selected by `_batch_hard` has
maximum code distance among all same-label non-self candidates for `a` (no
valid candidate is strictly farther), and the selected negative has minimum
code distance among all different-label candidates. -/
theorem batch_hard_selects_extremal (E : List (List ℚ)) (L : List ℤ)
    (hL : L.length = E.length) (a : ℕ) (ha : a < E.length)
    (hpos : ∃ p, p < E.length ∧ p ≠ a ∧ L.getD p 0 = L.getD a 0)
    (hneg : ∃ m, m < E.length ∧ L.getD m 0 ≠ L.getD a 0) :
    (∀ p, p < E.length → p ≠ a → L.getD p 0 = L.getD a 0 →
      ((pairwise_distances E).getD a []).getD p 0 ≤
        ((pairwise_distances E).getD a []).getD (((batch_hard E L).2.1).getD a 0) 0) ∧
    (∀ m, m < E.length → L.getD m 0 ≠ L.getD a 0 →
      ((pairwise_distances E).getD a []).getD (((batch_hard E L).2.2).getD a 0) 0 ≤
        ((pairwise_distances E).getD a []).getD m 0) := by
  constructor
  · intro p hp hne hlab
    rw [batch_hard_positive E L ha]
    have hrowlen : 0 < (positiveRow E L a).length := by
      rw [positiveRow_length]; omega
    have hM : argmax (positiveRow E L a) < E.length := by
      have := argmax_lt_length _ hrowlen
      rwa [positiveRow_length] at this
    calc ((pairwise_distances E).getD a []).getD p 0
        = (positiveRow E L a).getD p 0 :=
          (positiveRow_entry_valid E L hL ha hp hne hlab).symm
      _ ≤ (positiveRow E L a).getD (argmax (positiveRow E L a)) 0 :=
          getD_le_getD_argmax _ 0 p (by rw [positiveRow_length]; exact hp)
      _ ≤ ((pairwise_distances E).getD a []).getD (argmax (positiveRow E L a)) 0 :=
          positiveRow_entry_le E L ha hM
  · intro m hm hlab
    rw [batch_hard_negative E L ha]
    have hrowlen : 0 < (negativeRow E L a).length := by
      rw [negativeRow_length]; omega
    have hN : argmin (negativeRow E L a) < E.length := by
      have := argmin_lt_length _ hrowlen
      rwa [negativeRow_length] at this
    calc ((pairwise_distances E).getD a []).getD (argmin (negativeRow E L a)) 0
        ≤ (negativeRow E L a).getD (argmin (negativeRow E L a)) 0 :=
          negativeRow_entry_ge E L ha hN
      _ ≤ (negativeRow E L a).getD m 0 :=
          getD_argmin_le_getD _ 0 m (by rw [negativeRow_length]; exact hm)
      _ = ((pairwise_distances E).getD a []).getD m 0 :=
          negativeRow_entry_valid E L hL ha hm hlab

/-- Witness for `batch_hard_selects_extremal` at the spec's concrete batch,
anchor 0, positive candidate 1, negative candidate 3. -/
theorem batch_hard_selects_extremal_witness :
    ((pairwise_distances [[0], [1], [5], [6]]).getD 0 []).getD 1 0 ≤
      ((pairwise_distances [[0], [1], [5], [6]]).getD 0 []).getD
        (((batch_hard [[0], [1], [5], [6]] [0, 0, 1, 1]).2.1).getD 0 0) 0 ∧
    ((pairwise_distances [[0], [1], [5], [6]]).getD 0 []).getD
        (((batch_hard [[0], [1], [5], [6]] [0, 0, 1, 1]).2.2).getD 0 0) 0 ≤
      ((pairwise_distances [[0], [1], [5], [6]]).getD 0 []).getD 3 0 :=
  ⟨(batch_hard_selects_extremal [[0], [1], [5], [6]] [0, 0, 1, 1] rfl 0 (by norm_num)
      ⟨1, by decide⟩ ⟨2, by decide⟩).1 1 (by norm_num) (by norm_num) (by decide),
   (batch_hard_selects_extremal [[0], [1], [5], [6]] [0, 0, 1, 1] rfl 0 (by norm_num)
      ⟨1, by decide⟩ ⟨2, by decide⟩).2 3 (by norm_num) (by decide)⟩

/-! Helper lemmas for the remaining claims. -/

theorem zipWith_sub_sq_self_sum (A : List ℝ) :
    (List.zipWith (fun a b => (a - b) * (a - b)) A A).sum = 0 := by
  induction A with
  | nil => rfl
  | cons x xs ih => simp [ih]

theorem getD_map_of_lt {α β : Type} (f : α → β) (y : List α) {i : ℕ}
    (hi : i < y.length) (d : β) (d' : α) :
    (y.map f).getD i d = f (y.getD i d') := by
  rw [List.getD_eq_getElem?_getD, List.getElem?_map, List.getElem?_eq_getElem hi,
    List.getD_eq_getElem?_getD, List.getElem?_eq_getElem hi]
  rfl

theorem getD_eq_getElem_of_lt {α : Type} (l : List α) (k : ℕ) (hk : k < l.length)
    (d : α) : l.getD k d = l.get ⟨k, hk⟩ := by
  rw [List.getD_eq_getElem?_getD, List.getElem?_eq_getElem hk]
  rfl

theorem getD_mem_of_lt {α : Type} (l : List α) (k : ℕ) (hk : k < l.length)
    (d : α) : l.getD k d ∈ l := by
  rw [getD_eq_getElem_of_lt l k hk d]
  exact List.get_mem l k hk

/-- Behaviour of `np.argmax` on a one-hot row: the unique position holding `1` wins. -/
theorem argmax_of_one_hot (row : List ℤ) (k : ℕ) (hk : k < row.length)
    (h1 : row.getD k 0 = 1)
    (h0 : ∀ j, j < row.length → j ≠ k → row.getD j 0 = 0) :
    argmax row = k := by
  have hlen : 0 < row.length := Nat.lt_of_le_of_lt (Nat.zero_le k) hk
  have hm : argmax row < row.length := argmax_lt_length row hlen
  by_contra hne
  have hmax := getD_le_getD_argmax row 0 k hk
  rw [h1, h0 (argmax row) hm hne] at hmax
  exact absurd hmax (by norm_num)

theorem one_hot_to_index_getD (y : List (List ℤ)) {i : ℕ} (hi : i < y.length) :
    (one_hot_to_index y).getD i 0 =
      (if (y.getD i []).any (fun v => v != 0) then (argmax (y.getD i []) : ℤ) else -1) := by
  rw [one_hot_to_index]
  exact getD_map_of_lt _ y hi 0 []

theorem cons_set_perm (l : List ℕ) : ∀ (j : ℕ), j < l.length → ∀ b : ℕ,
    List.Perm (l.getD j 0 :: l.set j b) (b :: l) := by
  induction l with
  | nil => intro j hj; simp at hj
  | cons x xs ih =>
      intro j hj b
      match j with
      | 0 => exact List.Perm.swap b x xs
      | j + 1 =>
          have hj' : j < xs.length := by simpa using Nat.lt_of_succ_lt_succ hj
          have s1 : List.Perm (xs.getD j 0 :: x :: xs.set j b)
              (x :: xs.getD j 0 :: xs.set j b) := List.Perm.swap x _ _
          have s2 : List.Perm (x :: xs.getD j 0 :: xs.set j b) (x :: b :: xs) :=
            (ih j hj' b).cons x
          have s3 : List.Perm (x :: b :: xs) (b :: x :: xs) := List.Perm.swap b x xs
          exact (s1.trans s2).trans s3

theorem listSwap_perm (l : List ℕ) : ∀ (i j : ℕ), i < l.length → j < l.length →
    List.Perm (listSwap l i j) l := by
  induction l with
  | nil => intro i j hi; simp at hi
  | cons x xs ih =>
      intro i j hi hj
      match i, j with
      | 0, 0 =>
          simp [listSwap]
      | 0, j + 1 =>
          have hj' : j < xs.length := by simpa using Nat.lt_of_succ_lt_succ hj
          simp only [listSwap, List.getD_cons_succ, List.getD_cons_zero, List.set]
          exact cons_set_perm xs j hj' x
      | i + 1, 0 =>
          have hi' : i < xs.length := by simpa using Nat.lt_of_succ_lt_succ hi
          simp only [listSwap, List.getD_cons_succ, List.getD_cons_zero, List.set]
          exact cons_set_perm xs i hi' x
      | i + 1, j + 1 =>
          have hi' : i < xs.length := by simpa using Nat.lt_of_succ_lt_succ hi
          have hj' : j < xs.length := by simpa using Nat.lt_of_succ_lt_succ hj
          simp only [listSwap, List.getD_cons_succ, List.set]
          exact (ih i j hi' hj').cons x

theorem length_listSwap (l : List ℕ) (i j : ℕ) :
    (listSwap l i j).length = l.length := by
  simp [listSwap]

theorem shuffleAux_perm (r : ℕ → ℕ) : ∀ (c : ℕ) (l : List ℕ), c < l.length →
    List.Perm (shuffleAux r l c) l := by
  intro c
  induction c with
  | zero => intro l _; exact List.Perm.refl l
  | succ i ih =>
      intro l hc
      have hjlt : r (i + 1) % (i + 2) < l.length :=
        Nat.lt_of_lt_of_le (Nat.mod_lt _ (Nat.succ_pos _)) hc
      have hswap : List.Perm (listSwap l (i + 1) (r (i + 1) % (i + 2))) l :=
        listSwap_perm l (i + 1) (r (i + 1) % (i + 2)) hc hjlt
      have hlen : i < (listSwap l (i + 1) (r (i + 1) % (i + 2))).length := by
        rw [length_listSwap]; omega
      exact (ih _ hlen).trans hswap

theorem generator_len_eq (n b : ℕ) (hb : 0 < b) :
    generator_len n b = (n + b - 1) / b := by
  have hbq : (0 : ℚ) < (b : ℚ) := by exact_mod_cast hb
  set z := (n + b - 1) / b with hz
  have heq : b * z + (n + b - 1) % b = n + b - 1 := Nat.div_add_mod (n + b - 1) b
  have hrb : (n + b - 1) % b < b := Nat.mod_lt _ hb
  have h1 : n ≤ b * z := by omega
  have h2 : b * z < n + b := by omega
  have h1q : (n : ℚ) ≤ (b : ℚ) * (z : ℚ) := by exact_mod_cast h1
  have h2q : (b : ℚ) * (z : ℚ) < (n : ℚ) + (b : ℚ) := by exact_mod_cast h2
  have hcast : (((z : ℤ) : ℚ)) = (z : ℚ) := by push_cast; ring
  have hceil : ⌈(n : ℚ) / (b : ℚ)⌉ = (z : ℤ) := by
    rw [Int.ceil_eq_iff]
    constructor
    · rw [hcast, lt_div_iff₀ hbq]
      ring_nf
      ring_nf at h2q
      linarith
    · rw [hcast, div_le_iff₀ hbq]
      ring_nf
      ring_nf at h1q
      linarith
  rw [generator_len, hceil]
  rfl

/-- C6: `_triplet_distance` computes `max(0, d(A,P) − d(A,N) + margin)`
where `d(x,y) = sqrt(max(sum((x−y)²), ε))` with a positive epsilon floor;
when `A` and `P` are identical vectors the positive-pair distance is
exactly `sqrt ε`, so the loss reduces to
`max(0, sqrt ε − d(A,N) + margin)`. -/
theorem triplet_distance_spec (alpha eps : ℝ) (heps : 0 < eps) (A P N : List ℝ) :
    triplet_distance alpha eps A P N =
      max 0 (Real.sqrt (max ((List.zipWith (fun a b => (a - b) * (a - b)) A P).sum) eps)
        - Real.sqrt (max ((List.zipWith (fun a b => (a - b) * (a - b)) A N).sum) eps)
        + alpha) ∧
    euclidean_distance eps A A = Real.sqrt eps ∧
    triplet_distance alpha eps A A N =
      max 0 (Real.sqrt eps - euclidean_distance eps A N + alpha) := by
  have hAA : euclidean_distance eps A A = Real.sqrt eps := by
    rw [euclidean_distance, zipWith_sub_sq_self_sum, max_eq_right heps.le]
  refine ⟨?_, hAA, ?_⟩
  · rw [triplet_distance, euclidean_distance, euclidean_distance, max_comm]
  · rw [triplet_distance, hAA, max_comm]

/-- Witness for `triplet_distance_spec` at margin 1, epsilon 1, and the
one-dimensional triple `A = P = N = [0]`. -/
theorem triplet_distance_spec_witness :
    triplet_distance 1 1 [0] [0] [0] =
      max 0 (Real.sqrt (max ((List.zipWith (fun a b => (a - b) * (a - b))
          ([0] : List ℝ) [0]).sum) 1)
        - Real.sqrt (max ((List.zipWith (fun a b => (a - b) * (a - b))
          ([0] : List ℝ) [0]).sum) 1) + 1) ∧
    euclidean_distance 1 [0] [0] = Real.sqrt 1 ∧
    triplet_distance 1 1 [0] [0] [0] =
      max 0 (Real.sqrt 1 - euclidean_distance 1 [0] [0] + 1) :=
  triplet_distance_spec 1 1 one_pos [0] [0] [0]

/-- C7: `__len__` returns `ceil(n_examples / batch_size)` (equivalently the
Nat formula `(n + b − 1) / b`), `__getitem__` forms its batch from the
permutation slice `[index·b, (index+1)·b)` — its length is
`min b (n − index·b)`, so the last batch may be shorter — and an 11-example
dataset with batch size 100 yields exactly 1 batch, of size 11. -/
theorem generator_batches (n b : ℕ) (hb : 0 < b) :
    generator_len n b = (n + b - 1) / b ∧
    (∀ indices : List ℕ, indices.length = n → ∀ i : ℕ,
      (batch_indices indices i b).length = min b (n - i * b) ∧
      ∀ j : ℕ, j < (batch_indices indices i b).length →
        (batch_indices indices i b).getD j 0 = indices.getD (i * b + j) 0) ∧
    generator_len 11 100 = 1 ∧
    (batch_indices (List.range 11) 0 100).length = 11 := by
  refine ⟨generator_len_eq n b hb, ?_, ?_, ?_⟩
  · intro indices hlen i
    constructor
    · simp [batch_indices, hlen]
    · intro j hj
      have hjb : j < b := by
        have hle : (batch_indices indices i b).length ≤ b := by
          simp [batch_indices]
        omega
      rw [batch_indices, List.getD_eq_getElem?_getD, List.getElem?_take,
        if_pos hjb, List.getElem?_drop, List.getD_eq_getElem?_getD]
  · exact (generator_len_eq 11 100 (by norm_num)).trans (by norm_num)
  · simp [batch_indices]

/-- Witness for `generator_batches` at the spec's 11-example, batch-size-100
scenario, batch 0, element 3. -/
theorem generator_batches_witness :
    generator_len 11 100 = (11 + 100 - 1) / 100 ∧
    generator_len 11 100 = 1 ∧
    (batch_indices (List.range 11) 0 100).length = min 100 (11 - 0 * 100) ∧
    (batch_indices (List.range 11) 0 100).getD 3 0 = (List.range 11).getD (0 * 100 + 3) 0 :=
  ⟨(generator_batches 11 100 (by norm_num)).1,
   (generator_batches 11 100 (by norm_num)).2.2.1,
   ((generator_batches 11 100 (by norm_num)).2.1 (List.range 11) (by simp) 0).1,
   ((generator_batches 11 100 (by norm_num)).2.1 (List.range 11) (by simp) 0).2 3
     (by simp [batch_indices])⟩

/-- C8: `one_hot_to_index` maps a one-hot row (a single entry `1`, all other
entries `0`) to the index of its nonzero entry, and maps a row of all zeros
to the sentinel `-1`. -/
theorem one_hot_to_index_spec (y : List (List ℤ)) (i : ℕ) (hi : i < y.length) :
    (∀ k : ℕ, k < (y.getD i []).length → (y.getD i []).getD k 0 = 1 →
      (∀ j : ℕ, j < (y.getD i []).length → j ≠ k → (y.getD i []).getD j 0 = 0) →
      (one_hot_to_index y).getD i 0 = (k : ℤ)) ∧
    ((∀ j : ℕ, j < (y.getD i []).length → (y.getD i []).getD j 0 = 0) →
      (one_hot_to_index y).getD i 0 = -1) := by
  constructor
  · intro k hk h1 h0
    rw [one_hot_to_index_getD y hi]
    have hany : (y.getD i []).any (fun v => v != 0) = true := by
      rw [List.any_eq_true]
      refine ⟨(y.getD i []).getD k 0, getD_mem_of_lt _ k hk 0, ?_⟩
      rw [h1]
      norm_num
    rw [if_pos hany, argmax_of_one_hot (y.getD i []) k hk h1 h0]
  · intro h0
    rw [one_hot_to_index_getD y hi]
    have hany : ¬ ((y.getD i []).any (fun v => v != 0) = true) := by
      rw [List.any_eq_true]
      rintro ⟨x, hmem, hx⟩
      obtain ⟨j, hj, hxj⟩ := List.mem_iff_getElem.mp hmem
      have hz := h0 j hj
      rw [getD_eq_getElem_of_lt _ j hj 0, List.get_eq_getElem] at hz
      rw [← hxj] at hx
      rw [hz] at hx
      simp at hx
    rw [if_neg hany]

/-- Witness for `one_hot_to_index_spec` on the matrix `[[0,1,0],[0,0,0]]`:
row 0 is one-hot at position 1, row 1 is all zeros. -/
theorem one_hot_to_index_spec_witness :
    (one_hot_to_index [[0, 1, 0], [0, 0, 0]]).getD 0 0 = (1 : ℤ) ∧
    (one_hot_to_index [[0, 1, 0], [0, 0, 0]]).getD 1 0 = -1 :=
  ⟨(one_hot_to_index_spec [[0, 1, 0], [0, 0, 0]] 0 (by norm_num)).1 1 (by decide)
      (by decide) (fun j hj hne => by
        have hj' : j < 3 := by simpa using hj
        interval_cases j <;> simp_all),
   (one_hot_to_index_spec [[0, 1, 0], [0, 0, 0]] 1 (by norm_num)).2
      (fun j hj => by
        have hj' : j < 3 := by simpa using hj
        interval_cases j <;> simp_all)⟩

/-- C9: `on_epoch_end` (Python's `random.shuffle`, here a Fisher–Yates pass
driven by an arbitrary randomness oracle) returns a permutation of the index
list: the multiset of indices is preserved exactly — every original index
appears exactly as often as before and no new index appears. -/
theorem on_epoch_end_perm (r : ℕ → ℕ) (l : List ℕ) :
    List.Perm (on_epoch_end r l) l ∧
    ∀ x : ℕ, (on_epoch_end r l).count x = l.count x := by
  have hp : List.Perm (on_epoch_end r l) l := by
    rw [on_epoch_end]
    rcases Nat.eq_zero_or_pos l.length with h0 | hpos
    · rw [List.length_eq_zero] at h0
      subst h0
      exact List.Perm.refl _
    · exact shuffleAux_perm r (l.length - 1) l (by omega)
  exact ⟨hp, fun x => hp.count_eq x⟩

/-- C10: for label vectors whose entries all lie in `[0, n_classes)`,
`one_hot_to_index` inverts `index_to_one_hot`; the sentinel `-1` breaks the
round trip: it encodes to a row of all `-1` entries, which
`one_hot_to_index` then maps to index `0`, not back to `-1`. -/
theorem label_round_trip (y : List ℤ) (n : ℕ)
    (hy : ∀ v ∈ y, 0 ≤ v ∧ v < (n : ℤ)) :
    one_hot_to_index (index_to_one_hot y n) = y ∧
    (∀ m : ℕ, 0 < m →
      index_to_one_hot [-1] m = [List.replicate m (-1)] ∧
      one_hot_to_index [List.replicate m (-1)] = [0]) := by
  constructor
  · rw [index_to_one_hot, one_hot_to_index, List.map_map]
    have hcongr : ∀ v ∈ y,
        ((fun num => if num.any (fun w => w != 0) then (argmax num : ℤ) else -1) ∘
          (fun v => if v = -1 then List.replicate n (-1)
            else (List.range n).map fun (j : ℕ) =>
              if (j : ℤ) = (if v < 0 then (n : ℤ) + v else v) then 1 else 0)) v
          = id v := by
      intro v hv
      obtain ⟨hv0, hvn⟩ := hy v hv
      have hne : ¬ (v = -1) := by omega
      have hnlt : ¬ (v < 0) := by omega
      simp only [Function.comp_apply, if_neg hne, if_neg hnlt, id_eq]
      set row : List ℤ :=
        (List.range n).map (fun (j : ℕ) => if (j : ℤ) = v then 1 else 0) with hrowdef
      have hlen : row.length = n := by rw [hrowdef]; simp
      have hrow : ∀ j : ℕ, j < n → row.getD j 0 = if (j : ℤ) = v then 1 else 0 := by
        intro j hj
        rw [hrowdef]
        exact getD_map_range _ 0 hj
      have hk : v.toNat < n := by omega
      have hkv : ((v.toNat : ℕ) : ℤ) = v := Int.toNat_of_nonneg hv0
      have h1 : row.getD v.toNat 0 = 1 := by rw [hrow v.toNat hk, if_pos hkv]
      have h0 : ∀ j : ℕ, j < row.length → j ≠ v.toNat → row.getD j 0 = 0 := by
        intro j hj hne'
        rw [hlen] at hj
        rw [hrow j hj, if_neg]
        intro hcon
        apply hne'
        omega
      have hany : row.any (fun w => w != 0) = true := by
        rw [List.any_eq_true]
        refine ⟨row.getD v.toNat 0, getD_mem_of_lt _ _ (by rw [hlen]; exact hk) 0, ?_⟩
        rw [h1]
        norm_num
      rw [if_pos hany, argmax_of_one_hot row v.toNat (by rw [hlen]; exact hk) h1 h0, hkv]
    rw [List.map_congr_left hcongr, List.map_id]
  · intro m hm
    constructor
    · simp [index_to_one_hot]
    · rw [one_hot_to_index]
      have hany : (List.replicate m (-1 : ℤ)).any (fun w => w != 0) = true := by
        rw [List.any_eq_true]
        refine ⟨-1, ?_, by norm_num⟩
        rw [List.mem_replicate]
        exact ⟨by omega, rfl⟩
      simp only [List.map_cons, List.map_nil, if_pos hany, argmax_replicate]
      rfl

/-- Witness for `label_round_trip` on the label vector `[1, 0, 2]` with 3
classes, sentinel width 3. -/
theorem label_round_trip_witness :
    one_hot_to_index (index_to_one_hot [1, 0, 2] 3) = [1, 0, 2] ∧
    index_to_one_hot [-1] 3 = [List.replicate 3 (-1)] ∧
    one_hot_to_index [List.replicate 3 (-1)] = [0] :=
  ⟨(label_round_trip [1, 0, 2] 3 (by decide)).1,
   ((label_round_trip [1, 0, 2] 3 (by decide)).2 3 (by norm_num)).1,
   ((label_round_trip [1, 0, 2] 3 (by decide)).2 3 (by norm_num)).2⟩

end TypingNet
